import Mathlib

/-!
Shallow embedding of the tiramisu pipeline (src/main.go).

The program reads a flat list of entries, filters them (`Preprocess`),
builds a bidirectional dependency graph in a `map[int]*Component`
(`ResolveRelations`: materialize each entry as a component, wire the
declared references in both directions, prune isolated components), and
renders per-component neighbour views (`UpstreamDiagram`,
`DownstreamDiagram`, `FullDiagram`) as newline-joined D2 edge lines.

Modelling decisions:
* The Go `map[int]*Component` is modelled as an association list
  `Store = List (Int × Component)` with first-match lookup.  Map
  assignment is `insertStore` (overwrite in place, or append a new
  binding); in-place mutation through a pointer is `updateStore`
  (rewrite the value at a key).  Go map iteration order is
  unspecified, but every claim below is about the *contents* of the
  mapping, which the list model decides identically.
* A Go `*Component` held inside a `Dependencies`/`Dependents` slice is
  identified by the component it points to, i.e. by its integer id
  (component identity is the id: pass 1 stores each component under its
  own id and pass 2 only appends to the two slices).  So the two slices
  are modelled as `List Int`, and the formatter resolves the ids
  through the store — exactly what dereferencing the pointer does.
  The pointers stay valid after `delete` removes a component from the
  map, so the formatter is modelled against the *wired* (pre-prune)
  store.
* `ShortName` uses the Go regexp `^([0-9\.]+).*`: the anchored greedy
  capture group matches precisely the maximal leading run of characters
  in `[0-9.]`; when the first character is outside that class the regex
  does not match and the full name is returned.  This is modelled with
  `String.takeWhile`.
-/

structure DirectReference where
  id : Int
  typeName : String
  dependencyType : List Int
deriving DecidableEq, Repr

structure Entry where
  uuid : String
  id : Int
  parentId : Int
  name : String
  typeName : String
  isFolder : Bool
  directReferences : List DirectReference
  sortOrder : Int
deriving DecidableEq, Repr

structure Component where
  id : Int
  name : String
  typeName : String
  dependencies : List Int
  dependents : List Int
deriving DecidableEq, Repr

/-- `IGNORE_WITH_PARENT_ID` from main.go: ids of archive folders to ignore. -/
def IGNORE_WITH_PARENT_ID : List Int :=
  [24200, 24225, 24532, 25061, 25083, 24413, 24374, 24738, 25211, 230, 23795]

/-- `Preprocess` from main.go: the loop over `entries` with four
`continue` guards, appending the surviving entries in order. -/
def Preprocess (entries : List Entry) : List Entry :=
  entries.foldl (fun acc entry =>
    if entry.isFolder then acc
    else if entry.directReferences.length == 0 then acc
    else if entry.parentId ∈ IGNORE_WITH_PARENT_ID then acc
    else if entry.typeName ≠ "MeasureSheet" then acc
    else acc ++ [entry]) []

/-- `Entry.AsComponent` from main.go: id, name and type name are copied,
the two relation slices start empty. -/
def Entry.AsComponent (e : Entry) : Component :=
  { id := e.id, name := e.name, typeName := e.typeName,
    dependencies := [], dependents := [] }

/-- The Go `map[int]*Component` store, as an association list. -/
abbrev Store := List (Int × Component)

/-- Map read `store[i]`: first binding whose key is `i`. -/
def lookupStore : Store → Int → Option Component
  | [], _ => none
  | p :: rest, i => if p.1 = i then some p.2 else lookupStore rest i

/-- In-place mutation through the pointer stored at key `i`. -/
def updateStore : Store → Int → (Component → Component) → Store
  | [], _, _ => []
  | p :: rest, i, f =>
      (if p.1 = i then (p.1, f p.2) else p) :: updateStore rest i f

/-- Map assignment `store[c.Id] = c`: overwrite in place, or bind a new key. -/
def insertStore (s : Store) (c : Component) : Store :=
  if (lookupStore s c.id).isSome then updateStore s c.id (fun _ => c)
  else s ++ [(c.id, c)]

/-- `Component.AddDependency`: append an incoming reference (the target id). -/
def addDependency (t : Int) (c : Component) : Component :=
  { c with dependencies := c.dependencies ++ [t] }

/-- `Component.AddDependent`: append an outgoing reference (the source id). -/
def addDependent (d : Int) (c : Component) : Component :=
  { c with dependents := c.dependents ++ [d] }

/-- One reference of pass 2 of `ResolveRelations`: when the target id is
bound, `store[entry.Id].AddDependency(store[ref.Id])` then
`store[ref.Id].AddDependent(store[entry.Id])`; otherwise nothing. -/
def wireRef (s : Store) (entryId : Int) (r : DirectReference) : Store :=
  if (lookupStore s r.id).isSome then
    updateStore (updateStore s entryId (addDependency r.id)) r.id
      (addDependent entryId)
  else s

/-- Pass 2, inner loop: wire every direct reference of one entry. -/
def wireEntry (s : Store) (e : Entry) : Store :=
  e.directReferences.foldl (fun s r => wireRef s e.id r) s

/-- Pass 1 of `ResolveRelations`: store every entry as a fresh component. -/
def materialize (entries : List Entry) : Store :=
  entries.foldl (fun s e => insertStore s e.AsComponent) []

/-- Pass 2 of `ResolveRelations`: wire every entry. -/
def wire (entries : List Entry) (s : Store) : Store :=
  entries.foldl wireEntry s

/-- Pass 3 of `ResolveRelations`: delete every component whose two
relation slices are both empty. -/
def prune (s : Store) : Store :=
  s.filter (fun p => !(p.2.dependents.length == 0 && p.2.dependencies.length == 0))

/-- `ResolveRelations` from main.go: materialize, wire, prune. -/
def ResolveRelations (entries : List Entry) : Store :=
  prune (wire entries (materialize entries))

/-- The character class `[0-9.]` of `NAME_REGEX` (46 is the dot). -/
def numberCodeChar (ch : Char) : Bool := ch.isDigit || ch == Char.ofNat 46

/-- `Component.ShortName`: the maximal leading `[0-9.]` prefix of the
name when it is non-empty (the regex `^([0-9\.]+).*` capture), the full
name otherwise. -/
def Component.ShortName (c : Component) : String :=
  let m := String.mk (c.name.toList.takeWhile numberCodeChar)
  if m.isEmpty then c.name else m

/-- The single-quote character of the D2 edge line format. -/
def quoteMark : String := String.singleton (Char.ofNat 39)

/-- One D2 edge line, `fmt.Sprintf` with format string of quoted
source, arrow, quoted destination. -/
def relationLine (src dst : String) : String :=
  quoteMark ++ src ++ quoteMark ++ " -> " ++ quoteMark ++ dst ++ quoteMark

/-- The loop body of `UpstreamDiagram`: one line per dependency whose
component is a measure sheet and is not the component itself.  A
dependency id is resolved through the store (dereferencing the Go
pointer); an unresolvable id — impossible for stores built by
`ResolveRelations` — contributes nothing. -/
def upstreamLines (s : Store) (c : Component) : List Int → List String
  | [] => []
  | depId :: rest =>
    match lookupStore s depId with
    | none => upstreamLines s c rest
    | some dep =>
      if dep.typeName ≠ "MeasureSheet" then upstreamLines s c rest
      else if dep.id = c.id then upstreamLines s c rest
      else relationLine dep.ShortName c.ShortName :: upstreamLines s c rest

/-- The loop body of `DownstreamDiagram`, symmetric to `upstreamLines`. -/
def downstreamLines (s : Store) (c : Component) : List Int → List String
  | [] => []
  | depId :: rest =>
    match lookupStore s depId with
    | none => downstreamLines s c rest
    | some dep =>
      if dep.typeName ≠ "MeasureSheet" then downstreamLines s c rest
      else if dep.id = c.id then downstreamLines s c rest
      else relationLine c.ShortName dep.ShortName :: downstreamLines s c rest

/-- `Component.UpstreamDiagram`: the upstream lines joined by newlines. -/
def UpstreamDiagram (s : Store) (c : Component) : String :=
  String.intercalate "\n" (upstreamLines s c c.dependencies)

/-- `Component.DownstreamDiagram`: the downstream lines joined by newlines. -/
def DownstreamDiagram (s : Store) (c : Component) : String :=
  String.intercalate "\n" (downstreamLines s c c.dependents)

/-- `Component.FullDiagram`: upstream diagram, newline, downstream diagram. -/
def FullDiagram (s : Store) (c : Component) : String :=
  UpstreamDiagram s c ++ "\n" ++ DownstreamDiagram s c

/-! ### Derived accessors and spec-side definitions -/

/-- The dependency ids of the component stored at key `k` (empty when
the key is unbound). -/
def depsOf (s : Store) (k : Int) : List Int :=
  match lookupStore s k with
  | some c => c.dependencies
  | none => []

/-- The dependent ids of the component stored at key `k` (empty when
the key is unbound). -/
def deptsOf (s : Store) (k : Int) : List Int :=
  match lookupStore s k with
  | some c => c.dependents
  | none => []

/-- The short name of the component stored at key `j` (empty when the
key is unbound; never exercised for pipeline stores). -/
def shortNameAt (s : Store) (j : Int) : String :=
  match lookupStore s j with
  | some d => d.ShortName
  | none => ""

/-- Spec-side predicate of the Filter Stage (section 4.2 of the spec):
not a folder, non-empty reference list, parent group not denylisted,
type tag equal to the measure-sheet tag. -/
def keepEntry (e : Entry) : Bool :=
  !e.isFolder && !(e.directReferences.length == 0) &&
    !(decide (e.parentId ∈ IGNORE_WITH_PARENT_ID)) && (e.typeName == "MeasureSheet")

/-- Spec-side variant of `upstreamLines` with only the identifier
self-check (the spec section 4.4 mentions no type exclusion): used to
state that the type guard never skips an entry on pipeline stores. -/
def upstreamLinesSelfOnly (s : Store) (c : Component) : List Int → List String
  | [] => []
  | depId :: rest =>
    match lookupStore s depId with
    | none => upstreamLinesSelfOnly s c rest
    | some dep =>
      if dep.id = c.id then upstreamLinesSelfOnly s c rest
      else relationLine dep.ShortName c.ShortName :: upstreamLinesSelfOnly s c rest

/-- Spec-side variant of `downstreamLines` with only the identifier
self-check. -/
def downstreamLinesSelfOnly (s : Store) (c : Component) : List Int → List String
  | [] => []
  | depId :: rest =>
    match lookupStore s depId with
    | none => downstreamLinesSelfOnly s c rest
    | some dep =>
      if dep.id = c.id then downstreamLinesSelfOnly s c rest
      else relationLine c.ShortName dep.ShortName :: downstreamLinesSelfOnly s c rest

/-- Sheet A of the two-sheet witness scenario: id 1, one reference to id 2. -/
def sheetA : Entry :=
  { uuid := "", id := 1, parentId := 0, name := "1.0 A",
    typeName := "MeasureSheet", isFolder := false,
    directReferences := [{ id := 2, typeName := "MeasureSheet", dependencyType := [] }],
    sortOrder := 0 }

/-- Sheet B of the two-sheet witness scenario: id 2, one reference to id 1. -/
def sheetB : Entry :=
  { uuid := "", id := 2, parentId := 0, name := "2.0 B",
    typeName := "MeasureSheet", isFolder := false,
    directReferences := [{ id := 1, typeName := "MeasureSheet", dependencyType := [] }],
    sortOrder := 0 }

/-- Sheet C of the spec's second end-to-end scenario: id 10, one
reference to id 11. -/
def sheetC : Entry :=
  { uuid := "", id := 10, parentId := 0, name := "10.0 C",
    typeName := "MeasureSheet", isFolder := false,
    directReferences := [{ id := 11, typeName := "MeasureSheet", dependencyType := [] }],
    sortOrder := 0 }

/-- Sheet D of the spec's second end-to-end scenario: id 11, empty
reference list. -/
def sheetD : Entry :=
  { uuid := "", id := 11, parentId := 0, name := "11.0 D",
    typeName := "MeasureSheet", isFolder := false,
    directReferences := [], sortOrder := 0 }

/-- A self-referencing sheet: id 5, one reference to id 5. -/
def sheetS : Entry :=
  { uuid := "", id := 5, parentId := 0, name := "5.1 S",
    typeName := "MeasureSheet", isFolder := false,
    directReferences := [{ id := 5, typeName := "MeasureSheet", dependencyType := [] }],
    sortOrder := 0 }

/-- A sheet referencing the self-referencing sheet: id 6, one reference
to id 5. -/
def sheetT : Entry :=
  { uuid := "", id := 6, parentId := 0, name := "6.0 T",
    typeName := "MeasureSheet", isFolder := false,
    directReferences := [{ id := 5, typeName := "MeasureSheet", dependencyType := [] }],
    sortOrder := 0 }

/-! ### Store lemmas -/

theorem lookup_update (s : Store) (i j : Int) (f : Component → Component) :
    lookupStore (updateStore s i f) j =
      if j = i then (lookupStore s j).map f else lookupStore s j := by
  induction s with
  | nil => simp [lookupStore, updateStore]
  | cons p rest ih =>
    rw [updateStore]
    by_cases hpi : p.1 = i
    · rw [if_pos hpi]
      by_cases hji : j = i
      · rw [lookupStore, lookupStore, if_pos (hpi.trans hji.symm), if_pos (hpi.trans hji.symm)]
        simp [hji]
      · have hpj : ¬ p.1 = j := fun h => hji ((h.symm.trans hpi))
        rw [lookupStore, lookupStore, if_neg hpj, if_neg hpj, ih, if_neg hji]
    · rw [if_neg hpi]
      by_cases hpj : p.1 = j
      · have hji : ¬ j = i := fun h => hpi (hpj.trans h)
        rw [lookupStore, lookupStore, if_pos hpj, if_pos hpj, if_neg hji]
      · rw [lookupStore, lookupStore, if_neg hpj, if_neg hpj, ih]

theorem keys_update (s : Store) (i : Int) (f : Component → Component) :
    (updateStore s i f).map Prod.fst = s.map Prod.fst := by
  induction s with
  | nil => rfl
  | cons p rest ih =>
    by_cases hpi : p.1 = i <;> simp_all [updateStore]

theorem lookup_isSome_iff (s : Store) (i : Int) :
    (lookupStore s i).isSome = true ↔ i ∈ s.map Prod.fst := by
  induction s with
  | nil => simp [lookupStore]
  | cons p rest ih =>
    by_cases hpi : p.1 = i <;> simp_all [lookupStore]
    exact fun h => (hpi h.symm).elim

theorem lookup_none_iff (s : Store) (i : Int) :
    lookupStore s i = none ↔ i ∉ s.map Prod.fst := by
  rw [← lookup_isSome_iff]
  cases h : lookupStore s i <;> simp [h]

theorem lookup_mem (s : Store) (i : Int) (c : Component)
    (h : lookupStore s i = some c) : (i, c) ∈ s := by
  induction s with
  | nil => simp [lookupStore] at h
  | cons p rest ih =>
    rw [lookupStore] at h
    by_cases hpi : p.1 = i
    · rw [if_pos hpi] at h
      injection h with h2
      have hp : p = (i, c) := by
        cases p
        simp_all
      exact hp ▸ List.mem_cons_self p rest
    · rw [if_neg hpi] at h
      exact List.mem_cons_of_mem p (ih h)

theorem lookup_eq_of_mem_nodup (s : Store) (hnd : (s.map Prod.fst).Nodup)
    (i : Int) (c : Component) (hm : (i, c) ∈ s) : lookupStore s i = some c := by
  induction s with
  | nil => simp at hm
  | cons p rest ih =>
    simp only [List.map_cons, List.nodup_cons] at hnd
    rcases List.mem_cons.mp hm with h | h
    · rw [← h, lookupStore, if_pos rfl]
    · have hpi : ¬ p.1 = i := by
        intro hk
        exact hnd.1 (hk ▸ (List.mem_map.mpr ⟨(i, c), h, rfl⟩))
      rw [lookupStore, if_neg hpi]
      exact ih hnd.2 h

theorem lookup_filter (s : Store) (q : Int × Component → Bool)
    (hnd : (s.map Prod.fst).Nodup) (i : Int) :
    lookupStore (s.filter q) i =
      (lookupStore s i).bind (fun c => if q (i, c) then some c else none) := by
  induction s with
  | nil => simp [lookupStore]
  | cons p rest ih =>
    simp only [List.map_cons, List.nodup_cons] at hnd
    by_cases hpi : p.1 = i
    · have hp : p = (i, p.2) := by
        cases p
        simp_all
      by_cases hq : q p
      · rw [List.filter_cons_of_pos hq, lookupStore, if_pos hpi, lookupStore,
          if_pos hpi]
        rw [hp] at hq
        simp [Option.bind, hq]
      · rw [List.filter_cons_of_neg hq, lookupStore, if_pos hpi]
        rw [hp] at hq
        simp only [Option.bind]
        rw [if_neg hq, lookup_none_iff]
        intro hmem
        rcases List.mem_map.mp hmem with ⟨pr, hpr, hfst⟩
        have hin : i ∈ List.map Prod.fst rest :=
          List.mem_map.mpr ⟨pr, List.mem_of_mem_filter hpr, hfst⟩
        exact hnd.1 (by rw [hpi]; exact hin)
    · by_cases hq : q p
      · rw [List.filter_cons_of_pos hq, lookupStore, if_neg hpi, lookupStore, if_neg hpi]
        exact ih hnd.2
      · rw [List.filter_cons_of_neg hq, lookupStore, if_neg hpi]
        exact ih hnd.2

theorem mem_keys_insert (s : Store) (c : Component) (i : Int) :
    i ∈ (insertStore s c).map Prod.fst ↔ i ∈ s.map Prod.fst ∨ i = c.id := by
  unfold insertStore
  by_cases h : (lookupStore s c.id).isSome = true
  · rw [if_pos h, keys_update]
    have hc : c.id ∈ s.map Prod.fst := (lookup_isSome_iff s c.id).mp h
    constructor
    · exact Or.inl
    · rintro (hi | hi)
      · exact hi
      · exact hi ▸ hc
  · rw [if_neg h]
    simp

theorem nodup_keys_insert (s : Store) (c : Component)
    (hnd : (s.map Prod.fst).Nodup) : ((insertStore s c).map Prod.fst).Nodup := by
  unfold insertStore
  by_cases h : (lookupStore s c.id).isSome = true
  · rw [if_pos h, keys_update]
    exact hnd
  · rw [if_neg h]
    have hc : c.id ∉ s.map Prod.fst := by
      intro hm
      exact h ((lookup_isSome_iff s c.id).mpr hm)
    simp [List.nodup_append, hnd, hc]

theorem mem_insert (s : Store) (c : Component) (p : Int × Component)
    (h : p ∈ insertStore s c) : p ∈ s ∨ p = (c.id, c) := by
  unfold insertStore at h
  by_cases hs : (lookupStore s c.id).isSome = true
  · rw [if_pos hs] at h
    clear hs
    induction s with
    | nil => simp [updateStore] at h
    | cons q rest ih =>
      rw [updateStore] at h
      rcases List.mem_cons.mp h with h1 | h1
      · by_cases hq : q.1 = c.id
        · rw [if_pos hq] at h1
          right
          rw [h1, hq]
        · rw [if_neg hq] at h1
          exact Or.inl (h1 ▸ List.mem_cons_self q rest)
      · rcases ih h1 with h2 | h2
        · exact Or.inl (List.mem_cons_of_mem q h2)
        · exact Or.inr h2
  · rw [if_neg hs] at h
    rcases List.mem_append.mp h with h1 | h1
    · exact Or.inl h1
    · exact Or.inr (List.mem_singleton.mp h1)

theorem mem_update (s : Store) (i : Int) (f : Component → Component)
    (p : Int × Component) (h : p ∈ updateStore s i f) :
    p ∈ s ∨ ∃ q ∈ s, q.1 = i ∧ p = (q.1, f q.2) := by
  induction s with
  | nil => simp [updateStore] at h
  | cons q rest ih =>
    rw [updateStore] at h
    rcases List.mem_cons.mp h with h1 | h1
    · by_cases hq : q.1 = i
      · rw [if_pos hq] at h1
        exact Or.inr ⟨q, List.mem_cons_self q rest, hq, h1⟩
      · rw [if_neg hq] at h1
        exact Or.inl (h1 ▸ List.mem_cons_self q rest)
    · rcases ih h1 with h2 | h2
      · exact Or.inl (List.mem_cons_of_mem q h2)
      · rcases h2 with ⟨r, hr, hri, hp⟩
        exact Or.inr ⟨r, List.mem_cons_of_mem q hr, hri, hp⟩

/-- Every binding of `materialize l` is some entry of `l` materialized
under its own id. -/
theorem mem_materialize (l : List Entry) (p : Int × Component)
    (h : p ∈ materialize l) : ∃ e ∈ l, p = (e.id, e.AsComponent) := by
  unfold materialize at h
  suffices hgen : ∀ (l : List Entry) (s : Store), p ∈ l.foldl (fun s e => insertStore s e.AsComponent) s →
      p ∈ s ∨ ∃ e ∈ l, p = (e.id, e.AsComponent) by
    rcases hgen l [] h with h1 | h1
    · simp at h1
    · exact h1
  intro l
  induction l with
  | nil =>
    intro s hp
    exact Or.inl hp
  | cons e rest ih =>
    intro s hp
    rw [List.foldl_cons] at hp
    rcases ih _ hp with h1 | h1
    · rcases mem_insert _ _ _ h1 with h2 | h2
      · exact Or.inl h2
      · exact Or.inr ⟨e, List.mem_cons_self e rest, by rw [h2, Entry.AsComponent]⟩
    · rcases h1 with ⟨x, hx, hpx⟩
      exact Or.inr ⟨x, List.mem_cons_of_mem e hx, hpx⟩

theorem mem_keys_materialize (l : List Entry) (i : Int) :
    i ∈ (materialize l).map Prod.fst ↔ i ∈ l.map Entry.id := by
  unfold materialize
  suffices hgen : ∀ (l : List Entry) (s : Store),
      (i ∈ (l.foldl (fun s e => insertStore s e.AsComponent) s).map Prod.fst ↔
        i ∈ s.map Prod.fst ∨ i ∈ l.map Entry.id) by
    rw [hgen l []]
    simp
  intro l
  induction l with
  | nil =>
    intro s
    simp
  | cons e rest ih =>
    intro s
    rw [List.foldl_cons, ih, mem_keys_insert]
    simp [Entry.AsComponent]
    tauto

theorem nodup_keys_materialize (l : List Entry) :
    ((materialize l).map Prod.fst).Nodup := by
  unfold materialize
  suffices hgen : ∀ (l : List Entry) (s : Store), (s.map Prod.fst).Nodup →
      ((l.foldl (fun s e => insertStore s e.AsComponent) s).map Prod.fst).Nodup by
    exact hgen l [] (by simp)
  intro l
  induction l with
  | nil =>
    intro s hs
    exact hs
  | cons e rest ih =>
    intro s hs
    rw [List.foldl_cons]
    exact ih _ (nodup_keys_insert _ _ hs)

/-! ### Wiring step lemmas -/

theorem depsOf_update_addDependency (s : Store) (i t k : Int)
    (h : (lookupStore s i).isSome = true) :
    depsOf (updateStore s i (addDependency t)) k =
      if k = i then depsOf s k ++ [t] else depsOf s k := by
  unfold depsOf
  rw [lookup_update]
  by_cases hk : k = i
  · rw [if_pos hk, if_pos hk, hk]
    rcases Option.isSome_iff_exists.mp h with ⟨c, hc⟩
    rw [hc]
    rfl
  · rw [if_neg hk, if_neg hk]

theorem depsOf_update_addDependent (s : Store) (i d k : Int) :
    depsOf (updateStore s i (addDependent d)) k = depsOf s k := by
  unfold depsOf
  rw [lookup_update]
  by_cases hk : k = i
  · rw [if_pos hk]
    cases hc : lookupStore s k <;> rfl
  · rw [if_neg hk]

theorem deptsOf_update_addDependency (s : Store) (i t k : Int) :
    deptsOf (updateStore s i (addDependency t)) k = deptsOf s k := by
  unfold deptsOf
  rw [lookup_update]
  by_cases hk : k = i
  · rw [if_pos hk]
    cases hc : lookupStore s k <;> rfl
  · rw [if_neg hk]

theorem deptsOf_update_addDependent (s : Store) (i d k : Int)
    (h : (lookupStore s i).isSome = true) :
    deptsOf (updateStore s i (addDependent d)) k =
      if k = i then deptsOf s k ++ [d] else deptsOf s k := by
  unfold deptsOf
  rw [lookup_update]
  by_cases hk : k = i
  · rw [if_pos hk, if_pos hk, hk]
    rcases Option.isSome_iff_exists.mp h with ⟨c, hc⟩
    rw [hc]
    rfl
  · rw [if_neg hk, if_neg hk]

theorem keys_wireRef (s : Store) (eid : Int) (r : DirectReference) :
    (wireRef s eid r).map Prod.fst = s.map Prod.fst := by
  unfold wireRef
  by_cases h : (lookupStore s r.id).isSome = true
  · rw [if_pos h, keys_update, keys_update]
  · rw [if_neg h]

theorem lookup_isSome_congr {s t : Store} (h : s.map Prod.fst = t.map Prod.fst)
    (k : Int) : (lookupStore s k).isSome = (lookupStore t k).isSome := by
  have h1 := lookup_isSome_iff s k
  have h2 := lookup_isSome_iff t k
  rw [h] at h1
  cases hb : (lookupStore s k).isSome <;> cases ht : (lookupStore t k).isSome <;>
    simp_all

theorem depsOf_wireRef (s : Store) (eid : Int) (r : DirectReference) (k : Int)
    (h : (lookupStore s eid).isSome = true) :
    depsOf (wireRef s eid r) k =
      if k = eid ∧ (lookupStore s r.id).isSome = true then depsOf s k ++ [r.id]
      else depsOf s k := by
  unfold wireRef
  by_cases hp : (lookupStore s r.id).isSome = true
  · rw [if_pos hp, depsOf_update_addDependent, depsOf_update_addDependency s eid r.id k h]
    by_cases hk : k = eid
    · rw [if_pos hk, if_pos ⟨hk, hp⟩]
    · rw [if_neg hk, if_neg (fun hc => hk hc.1)]
  · rw [if_neg hp, if_neg (fun hc => hp hc.2)]

theorem depsOf_wireRef_ne (s : Store) (eid : Int) (r : DirectReference) (k : Int)
    (hk : k ≠ eid) :
    depsOf (wireRef s eid r) k = depsOf s k := by
  unfold wireRef
  by_cases hp : (lookupStore s r.id).isSome = true
  · rw [if_pos hp, depsOf_update_addDependent]
    unfold depsOf
    rw [lookup_update, if_neg hk]
  · rw [if_neg hp]

theorem deptsOf_wireRef (s : Store) (eid : Int) (r : DirectReference) (k : Int) :
    deptsOf (wireRef s eid r) k =
      if k = r.id ∧ (lookupStore s r.id).isSome = true then deptsOf s k ++ [eid]
      else deptsOf s k := by
  unfold wireRef
  by_cases hp : (lookupStore s r.id).isSome = true
  · have hp2 : (lookupStore (updateStore s eid (addDependency r.id)) r.id).isSome = true := by
      rw [lookup_isSome_congr (keys_update s eid (addDependency r.id)) r.id]
      exact hp
    rw [if_pos hp, deptsOf_update_addDependent _ _ _ _ hp2, deptsOf_update_addDependency]
    by_cases hk : k = r.id
    · rw [if_pos hk, if_pos ⟨hk, hp⟩]
    · rw [if_neg hk, if_neg (fun hc => hk hc.1)]
  · rw [if_neg hp, if_neg (fun hc => hp hc.2)]

/-! ### Fold-level wiring lemmas -/

theorem keys_foldl_wireRef (rs : List DirectReference) (s : Store) (eid : Int) :
    ((rs.foldl (fun s r => wireRef s eid r) s).map Prod.fst) = s.map Prod.fst := by
  induction rs generalizing s with
  | nil => rfl
  | cons r rest ih =>
    rw [List.foldl_cons, ih, keys_wireRef]

theorem keys_wireEntry (s : Store) (e : Entry) :
    (wireEntry s e).map Prod.fst = s.map Prod.fst :=
  keys_foldl_wireRef e.directReferences s e.id

theorem keys_wire (l : List Entry) (s : Store) :
    (wire l s).map Prod.fst = s.map Prod.fst := by
  unfold wire
  induction l generalizing s with
  | nil => rfl
  | cons e rest ih =>
    rw [List.foldl_cons, ih, keys_wireEntry]

theorem depsOf_foldl_wireRef (rs : List DirectReference) (s : Store) (eid k : Int)
    (h : (lookupStore s eid).isSome = true) :
    depsOf (rs.foldl (fun s r => wireRef s eid r) s) k =
      if k = eid then
        depsOf s k ++ (rs.filter (fun r => (lookupStore s r.id).isSome)).map DirectReference.id
      else depsOf s k := by
  induction rs generalizing s with
  | nil =>
    by_cases hk : k = eid <;> simp [hk]
  | cons r rest ih =>
    rw [List.foldl_cons]
    have hkeys := keys_wireRef s eid r
    have h2 : (lookupStore (wireRef s eid r) eid).isSome = true := by
      rw [lookup_isSome_congr hkeys]
      exact h
    rw [ih _ h2]
    by_cases hk : k = eid
    · rw [if_pos hk, if_pos hk, depsOf_wireRef s eid r k h]
      have hfilter : (rest.filter (fun x => (lookupStore (wireRef s eid r) x.id).isSome)) =
          (rest.filter (fun x => (lookupStore s x.id).isSome)) := by
        apply List.filter_congr
        intro x _
        rw [lookup_isSome_congr hkeys]
      rw [hfilter]
      by_cases hp : (lookupStore s r.id).isSome = true
      · rw [if_pos ⟨hk, hp⟩]
        simp [List.filter_cons, hp]
      · rw [if_neg (fun hc => hp hc.2)]
        simp [List.filter_cons, hp]
    · rw [if_neg hk, if_neg hk, depsOf_wireRef_ne s eid r k hk]

theorem deptsOf_foldl_wireRef (rs : List DirectReference) (s : Store) (eid k : Int) :
    deptsOf (rs.foldl (fun s r => wireRef s eid r) s) k =
      deptsOf s k ++
        ((rs.filter (fun r => decide (r.id = k) && (lookupStore s r.id).isSome)).map
          (fun _ => eid)) := by
  induction rs generalizing s with
  | nil => simp
  | cons r rest ih =>
    rw [List.foldl_cons, ih]
    have hkeys := keys_wireRef s eid r
    have hfilter : (rest.filter (fun x => decide (x.id = k) && (lookupStore (wireRef s eid r) x.id).isSome)) =
        (rest.filter (fun x => decide (x.id = k) && (lookupStore s x.id).isSome)) := by
      apply List.filter_congr
      intro x _
      rw [lookup_isSome_congr hkeys]
    rw [hfilter, deptsOf_wireRef]
    by_cases hrk : r.id = k
    · by_cases hp : (lookupStore s r.id).isSome = true
      · have hpk : (lookupStore s k).isSome = true := hrk ▸ hp
        rw [if_pos ⟨hrk.symm, hp⟩, List.filter_cons_of_pos (by simp [hrk, hpk]),
          List.map_cons, List.append_cons, List.append_assoc]
        simp
      · rw [if_neg (fun hc => hp hc.2), List.filter_cons_of_neg (by simp [hp])]
    · rw [if_neg (fun hc => hrk hc.1.symm), List.filter_cons_of_neg (by simp [hrk])]

theorem depsOf_wireEntry (s : Store) (e : Entry) (k : Int)
    (h : (lookupStore s e.id).isSome = true) :
    depsOf (wireEntry s e) k =
      if k = e.id then
        depsOf s k ++
          (e.directReferences.filter (fun r => (lookupStore s r.id).isSome)).map
            DirectReference.id
      else depsOf s k :=
  depsOf_foldl_wireRef e.directReferences s e.id k h

theorem depsOf_wireEntry_ne (s : Store) (e : Entry) (k : Int) (hk : k ≠ e.id) :
    depsOf (wireEntry s e) k = depsOf s k := by
  unfold wireEntry
  induction e.directReferences generalizing s with
  | nil => rfl
  | cons r rest ih =>
    rw [List.foldl_cons, ih, depsOf_wireRef_ne s e.id r k hk]

theorem deptsOf_wireEntry (s : Store) (e : Entry) (k : Int) :
    deptsOf (wireEntry s e) k =
      deptsOf s k ++
        ((e.directReferences.filter
          (fun r => decide (r.id = k) && (lookupStore s r.id).isSome)).map
            (fun _ => e.id)) :=
  deptsOf_foldl_wireRef e.directReferences s e.id k

theorem depsOf_wire_ne (l : List Entry) (s : Store) (k : Int)
    (h : ∀ e ∈ l, e.id ≠ k) :
    depsOf (wire l s) k = depsOf s k := by
  unfold wire
  induction l generalizing s with
  | nil => rfl
  | cons e rest ih =>
    rw [List.foldl_cons, ih _ (fun x hx => h x (List.mem_cons_of_mem e hx)),
      depsOf_wireEntry_ne s e k (fun hk => h e (List.mem_cons_self e rest) hk.symm)]

/-- After pass 2, the dependency list of the component of entry `e` is
exactly the ids of the references of `e` whose target is bound in the
initial store, in reference order. -/
theorem depsOf_wire (l : List Entry) (s : Store) (e : Entry) (he : e ∈ l)
    (hnd : (l.map Entry.id).Nodup)
    (hall : ∀ x ∈ l, (lookupStore s x.id).isSome = true) :
    depsOf (wire l s) e.id =
      depsOf s e.id ++
        (e.directReferences.filter (fun r => (lookupStore s r.id).isSome)).map
          DirectReference.id := by
  unfold wire
  induction l generalizing s with
  | nil => simp at he
  | cons x rest ih =>
    simp only [List.map_cons, List.nodup_cons] at hnd
    rw [List.foldl_cons]
    rcases List.mem_cons.mp he with hex | hex
    · subst hex
    
      have hne : ∀ y ∈ rest, y.id ≠ e.id := by
        intro y hy hid
        exact hnd.1 (hid ▸ List.mem_map.mpr ⟨y, hy, rfl⟩)
      have hwne : depsOf (List.foldl wireEntry (wireEntry s e) rest) e.id =
          depsOf (wireEntry s e) e.id := depsOf_wire_ne rest (wireEntry s e) e.id hne
      rw [hwne, depsOf_wireEntry s e e.id (hall e (List.mem_cons_self e rest))]
      simp
    · have hxe : x.id ≠ e.id := by
        intro hid
        exact hnd.1 (hid ▸ List.mem_map.mpr ⟨e, hex, rfl⟩)
      have hkeys := keys_wireEntry s x
      have hall2 : ∀ y ∈ rest, (lookupStore (wireEntry s x) y.id).isSome = true := by
        intro y hy
        rw [lookup_isSome_congr hkeys]
        exact hall y (List.mem_cons_of_mem x hy)
      rw [ih _ hex hnd.2 hall2, depsOf_wireEntry_ne s x e.id (fun hk => hxe hk.symm)]
      have hfilter : (e.directReferences.filter (fun r => (lookupStore (wireEntry s x) r.id).isSome)) =
          (e.directReferences.filter (fun r => (lookupStore s r.id).isSome)) := by
        apply List.filter_congr
        intro y _
        rw [lookup_isSome_congr hkeys]
      rw [hfilter]

/-- After pass 2, the dependent list of the component at key `k` is the
initial list extended by one entry id per reference targeting `k`, in
entry order then reference order. -/
theorem deptsOf_wire (l : List Entry) (s : Store) (k : Int) :
    deptsOf (wire l s) k =
      deptsOf s k ++
        l.flatMap (fun e =>
          (e.directReferences.filter
            (fun r => decide (r.id = k) && (lookupStore s r.id).isSome)).map
              (fun _ => e.id)) := by
  unfold wire
  induction l generalizing s with
  | nil => simp
  | cons e rest ih =>
    rw [List.foldl_cons, ih]
    have hkeys := keys_wireEntry s e
    have hfilter : ∀ y : Entry, (y.directReferences.filter
        (fun r => decide (r.id = k) && (lookupStore (wireEntry s e) r.id).isSome)) =
        (y.directReferences.filter
          (fun r => decide (r.id = k) && (lookupStore s r.id).isSome)) := by
      intro y
      apply List.filter_congr
      intro x _
      rw [lookup_isSome_congr hkeys]
    simp only [hfilter, deptsOf_wireEntry s e k, List.flatMap_cons, List.append_assoc]

/-! ### Symmetry invariant -/

theorem depsOf_materialize (l : List Entry) (k : Int) :
    depsOf (materialize l) k = [] := by
  unfold depsOf
  cases h : lookupStore (materialize l) k with
  | none => rfl
  | some c =>
    rcases mem_materialize l _ (lookup_mem _ _ _ h) with ⟨e, _, hac⟩
    have : c = e.AsComponent := congrArg Prod.snd hac
    rw [this, Entry.AsComponent]

theorem deptsOf_materialize (l : List Entry) (k : Int) :
    deptsOf (materialize l) k = [] := by
  unfold deptsOf
  cases h : lookupStore (materialize l) k with
  | none => rfl
  | some c =>
    rcases mem_materialize l _ (lookup_mem _ _ _ h) with ⟨e, _, hac⟩
    have : c = e.AsComponent := congrArg Prod.snd hac
    rw [this, Entry.AsComponent]

theorem hall_materialize (l : List Entry) :
    ∀ e ∈ l, (lookupStore (materialize l) e.id).isSome = true := by
  intro e he
  rw [lookup_isSome_iff, mem_keys_materialize]
  exact List.mem_map.mpr ⟨e, he, rfl⟩

theorem sym_wireRef (s : Store) (eid : Int) (r : DirectReference)
    (h : (lookupStore s eid).isSome = true)
    (hs : ∀ a b : Int, a ∈ depsOf s b ↔ b ∈ deptsOf s a) :
    ∀ a b : Int, a ∈ depsOf (wireRef s eid r) b ↔ b ∈ deptsOf (wireRef s eid r) a := by
  intro a b
  rw [depsOf_wireRef s eid r b h, deptsOf_wireRef s eid r a]
  by_cases hb : b = eid ∧ (lookupStore s r.id).isSome = true
  · rw [if_pos hb]
    by_cases ha : a = r.id ∧ (lookupStore s r.id).isSome = true
    · rw [if_pos ha]
      simp only [List.mem_append, List.mem_singleton]
      rw [hs a b]
      tauto
    · rw [if_neg ha]
      simp only [List.mem_append, List.mem_singleton]
      rw [hs a b]
      have : ¬ a = r.id := fun hc => ha ⟨hc, hb.2⟩
      tauto
  · rw [if_neg hb]
    by_cases ha : a = r.id ∧ (lookupStore s r.id).isSome = true
    · rw [if_pos ha]
      simp only [List.mem_append, List.mem_singleton]
      rw [hs a b]
      have : ¬ b = eid := fun hc => hb ⟨hc, ha.2⟩
      tauto
    · rw [if_neg ha]
      exact hs a b

theorem sym_wireEntry (s : Store) (e : Entry)
    (h : (lookupStore s e.id).isSome = true)
    (hs : ∀ a b : Int, a ∈ depsOf s b ↔ b ∈ deptsOf s a) :
    ∀ a b : Int, a ∈ depsOf (wireEntry s e) b ↔ b ∈ deptsOf (wireEntry s e) a := by
  unfold wireEntry
  induction e.directReferences generalizing s with
  | nil => exact hs
  | cons r rest ih =>
    rw [List.foldl_cons]
    have h2 : (lookupStore (wireRef s e.id r) e.id).isSome = true := by
      rw [lookup_isSome_congr (keys_wireRef s e.id r)]
      exact h
    exact ih _ h2 (sym_wireRef s e.id r h hs)

theorem sym_wire (l : List Entry) (s : Store)
    (hall : ∀ x ∈ l, (lookupStore s x.id).isSome = true)
    (hs : ∀ a b : Int, a ∈ depsOf s b ↔ b ∈ deptsOf s a) :
    ∀ a b : Int, a ∈ depsOf (wire l s) b ↔ b ∈ deptsOf (wire l s) a := by
  unfold wire
  induction l generalizing s with
  | nil => exact hs
  | cons e rest ih =>
    rw [List.foldl_cons]
    have hall2 : ∀ y ∈ rest, (lookupStore (wireEntry s e) y.id).isSome = true := by
      intro y hy
      rw [lookup_isSome_congr (keys_wireEntry s e)]
      exact hall y (List.mem_cons_of_mem e hy)
    exact ih _ hall2 (sym_wireEntry s e (hall e (List.mem_cons_self e rest)) hs)

/-- Edge symmetry of the wired store: an id is among the dependencies of
the component at key `b` iff `b` is among the dependents of the
component at key `a`. -/
theorem sym_wired (l : List Entry) :
    ∀ a b : Int, a ∈ depsOf (wire l (materialize l)) b ↔
      b ∈ deptsOf (wire l (materialize l)) a := by
  apply sym_wire l (materialize l) (hall_materialize l)
  intro a b
  rw [depsOf_materialize, deptsOf_materialize]
  simp

/-! ### Value invariants and prune lemmas -/

theorem nodup_keys_wired (l : List Entry) :
    ((wire l (materialize l)).map Prod.fst).Nodup := by
  rw [keys_wire]
  exact nodup_keys_materialize l

theorem updateStore_forall (s : Store) (i : Int) (f : Component → Component)
    (Q : Int × Component → Prop) (h : ∀ p ∈ s, Q p)
    (hf : ∀ p, Q p → Q (p.1, f p.2)) : ∀ p ∈ updateStore s i f, Q p := by
  intro p hp
  rcases mem_update s i f p hp with h1 | h1
  · exact h p h1
  · rcases h1 with ⟨q, hq, _, hpq⟩
    exact hpq ▸ hf q (h q hq)

theorem wireRef_forall (s : Store) (eid : Int) (r : DirectReference)
    (Q : Int × Component → Prop) (h : ∀ p ∈ s, Q p)
    (hdep : ∀ p, Q p → Q (p.1, addDependency r.id p.2))
    (hdept : ∀ p, Q p → Q (p.1, addDependent eid p.2)) :
    ∀ p ∈ wireRef s eid r, Q p := by
  unfold wireRef
  by_cases hp : (lookupStore s r.id).isSome = true
  · rw [if_pos hp]
    exact updateStore_forall _ _ _ Q (updateStore_forall _ _ _ Q h hdep) hdept
  · rw [if_neg hp]
    exact h

/-- Any property of a binding that both slice appends preserve holds on
the wired store as soon as it holds on the initial store. -/
theorem wire_forall (l : List Entry) (s : Store) (Q : Int × Component → Prop)
    (h : ∀ p ∈ s, Q p)
    (hdep : ∀ (t : Int) (p : Int × Component), Q p → Q (p.1, addDependency t p.2))
    (hdept : ∀ (d : Int) (p : Int × Component), Q p → Q (p.1, addDependent d p.2)) :
    ∀ p ∈ wire l s, Q p := by
  unfold wire
  induction l generalizing s with
  | nil => exact h
  | cons e rest ih =>
    rw [List.foldl_cons]
    apply ih
    unfold wireEntry
    generalize e.directReferences = rs
    induction rs generalizing s with
    | nil => exact h
    | cons r rrest ihr =>
      rw [List.foldl_cons]
      apply ihr
      exact wireRef_forall s e.id r Q h (hdep r.id) (hdept e.id)

/-- Every binding of the wired store holds its component under the
component's own id. -/
theorem id_key_wired (l : List Entry) :
    ∀ p ∈ wire l (materialize l), p.2.id = p.1 := by
  apply wire_forall
  · intro p hp
    rcases mem_materialize l p hp with ⟨e, _, hpe⟩
    rw [hpe, Entry.AsComponent]
  · intro t p hq
    rw [addDependency] at *
    exact hq
  · intro d p hq
    rw [addDependent] at *
    exact hq

theorem lookup_prune (s : Store) (hnd : (s.map Prod.fst).Nodup) (i : Int) :
    lookupStore (prune s) i =
      (lookupStore s i).bind (fun c =>
        if !(c.dependents.length == 0 && c.dependencies.length == 0) then some c
        else none) := by
  unfold prune
  rw [lookup_filter s _ hnd i]

theorem lookup_prune_some (s : Store) (hnd : (s.map Prod.fst).Nodup) (i : Int)
    (c : Component) (h : lookupStore (prune s) i = some c) :
    lookupStore s i = some c ∧
      ¬(c.dependents.length = 0 ∧ c.dependencies.length = 0) := by
  rw [lookup_prune s hnd i] at h
  cases hc : lookupStore s i with
  | none =>
    rw [hc] at h
    simp at h
  | some d =>
    rw [hc] at h
    simp only [Option.some_bind] at h
    by_cases hcond : (d.dependents.length == 0 && d.dependencies.length == 0) = true
    · rw [hcond] at h
      simp at h
    · have : (!(d.dependents.length == 0 && d.dependencies.length == 0)) = true := by
        simp [hcond]
      rw [this, if_pos rfl] at h
      injection h with hdc
      subst hdc
      refine ⟨rfl, ?_⟩
      intro hcontra
      apply hcond
      simp [hcontra.1, hcontra.2]

theorem lookup_prune_kept (s : Store) (hnd : (s.map Prod.fst).Nodup) (i : Int)
    (c : Component) (h : lookupStore s i = some c)
    (hkeep : ¬(c.dependents.length = 0 ∧ c.dependencies.length = 0)) :
    lookupStore (prune s) i = some c := by
  rw [lookup_prune s hnd i, h, Option.some_bind]
  have hb : (c.dependents.length == 0 && c.dependencies.length == 0) = false := by
    by_contra hb2
    rw [Bool.not_eq_false] at hb2
    simp only [Bool.and_eq_true, beq_iff_eq] at hb2
    exact hkeep hb2
  simp [hb]

/-! ### Filter stage and formatter lemmas -/

theorem Preprocess_eq_filter (entries : List Entry) :
    Preprocess entries = entries.filter keepEntry := by
  suffices hgen : ∀ (l : List Entry) (acc : List Entry),
      l.foldl (fun acc entry =>
        if entry.isFolder then acc
        else if entry.directReferences.length == 0 then acc
        else if entry.parentId ∈ IGNORE_WITH_PARENT_ID then acc
        else if entry.typeName ≠ "MeasureSheet" then acc
        else acc ++ [entry]) acc = acc ++ l.filter keepEntry by
    rw [Preprocess, hgen entries []]
    simp
  intro l
  induction l with
  | nil =>
    intro acc
    simp
  | cons e rest ih =>
    intro acc
    rw [List.foldl_cons]
    by_cases h1 : e.isFolder = true
    · rw [if_pos h1, ih, List.filter_cons_of_neg (by simp [keepEntry, h1])]
    · rw [if_neg h1]
      by_cases h2 : (e.directReferences.length == 0) = true
      · rw [if_pos h2, ih, List.filter_cons_of_neg (by simp [keepEntry, h1, h2])]
      · rw [if_neg h2]
        by_cases h3 : e.parentId ∈ IGNORE_WITH_PARENT_ID
        · rw [if_pos h3, ih, List.filter_cons_of_neg (by simp [keepEntry, h1, h2, h3])]
        · rw [if_neg h3]
          by_cases h4 : e.typeName ≠ "MeasureSheet"
          · rw [if_pos h4, ih, List.filter_cons_of_neg (by simp [keepEntry, h1, h2, h3, h4])]
          · rw [if_neg h4, ih,
              List.filter_cons_of_pos (by simp_all [keepEntry]), List.append_assoc]
            rfl

theorem upstreamLines_resolved (s : Store) (c : Component) (l : List Int)
    (h : ∀ j ∈ l, ∃ d, lookupStore s j = some d ∧ d.id = j ∧
      d.typeName = "MeasureSheet") :
    upstreamLines s c l =
      (l.filter (fun j => !(j == c.id))).map
        (fun j => relationLine (shortNameAt s j) c.ShortName) := by
  induction l with
  | nil => rfl
  | cons j rest ih =>
    rcases h j (List.mem_cons_self j rest) with ⟨d, hd, hid, hty⟩
    have hrest := ih (fun x hx => h x (List.mem_cons_of_mem j hx))
    rw [upstreamLines, hd]
    simp only [hty, if_neg (by simp : ¬("MeasureSheet" ≠ "MeasureSheet"))]
    by_cases hj : j = c.id
    · rw [if_pos (hid.trans hj), hrest, List.filter_cons_of_neg (by simp [hj])]
    · rw [if_neg (fun hc => hj (hid.symm.trans hc)), hrest,
        List.filter_cons_of_pos (by simp [hj]), List.map_cons]
      have : shortNameAt s j = d.ShortName := by
        rw [shortNameAt, hd]
      rw [this]

theorem downstreamLines_resolved (s : Store) (c : Component) (l : List Int)
    (h : ∀ j ∈ l, ∃ d, lookupStore s j = some d ∧ d.id = j ∧
      d.typeName = "MeasureSheet") :
    downstreamLines s c l =
      (l.filter (fun j => !(j == c.id))).map
        (fun j => relationLine c.ShortName (shortNameAt s j)) := by
  induction l with
  | nil => rfl
  | cons j rest ih =>
    rcases h j (List.mem_cons_self j rest) with ⟨d, hd, hid, hty⟩
    have hrest := ih (fun x hx => h x (List.mem_cons_of_mem j hx))
    rw [downstreamLines, hd]
    simp only [hty, if_neg (by simp : ¬("MeasureSheet" ≠ "MeasureSheet"))]
    by_cases hj : j = c.id
    · rw [if_pos (hid.trans hj), hrest, List.filter_cons_of_neg (by simp [hj])]
    · rw [if_neg (fun hc => hj (hid.symm.trans hc)), hrest,
        List.filter_cons_of_pos (by simp [hj]), List.map_cons]
      have : shortNameAt s j = d.ShortName := by
        rw [shortNameAt, hd]
      rw [this]

theorem upstreamLines_selfOnly_of_MS (s : Store) (c : Component)
    (hms : ∀ i cc, lookupStore s i = some cc → cc.typeName = "MeasureSheet")
    (l : List Int) : upstreamLines s c l = upstreamLinesSelfOnly s c l := by
  induction l with
  | nil => rfl
  | cons j rest ih =>
    rw [upstreamLines, upstreamLinesSelfOnly]
    cases hd : lookupStore s j with
    | none => exact ih
    | some d =>
      have hty := hms j d hd
      by_cases hj : d.id = c.id <;> simp [hty, hj, ih]

theorem downstreamLines_selfOnly_of_MS (s : Store) (c : Component)
    (hms : ∀ i cc, lookupStore s i = some cc → cc.typeName = "MeasureSheet")
    (l : List Int) : downstreamLines s c l = downstreamLinesSelfOnly s c l := by
  induction l with
  | nil => rfl
  | cons j rest ih =>
    rw [downstreamLines, downstreamLinesSelfOnly]
    cases hd : lookupStore s j with
    | none => exact ih
    | some d =>
      have hty := hms j d hd
      by_cases hj : d.id = c.id <;> simp [hty, hj, ih]

theorem upstreamLines_nil_of_self (s : Store) (c : Component) (l : List Int)
    (h : ∀ j ∈ l, ∀ d, lookupStore s j = some d → d.id = c.id) :
    upstreamLines s c l = [] := by
  induction l with
  | nil => rfl
  | cons j rest ih =>
    have hrest := ih (fun x hx => h x (List.mem_cons_of_mem j hx))
    rw [upstreamLines]
    cases hd : lookupStore s j with
    | none => exact hrest
    | some d =>
      by_cases hty : d.typeName = "MeasureSheet"
      · simp [hty, h j (List.mem_cons_self j rest) d hd, hrest]
      · simp [hty, hrest]

theorem downstreamLines_nil_of_self (s : Store) (c : Component) (l : List Int)
    (h : ∀ j ∈ l, ∀ d, lookupStore s j = some d → d.id = c.id) :
    downstreamLines s c l = [] := by
  induction l with
  | nil => rfl
  | cons j rest ih =>
    have hrest := ih (fun x hx => h x (List.mem_cons_of_mem j hx))
    rw [downstreamLines]
    cases hd : lookupStore s j with
    | none => exact hrest
    | some d =>
      by_cases hty : d.typeName = "MeasureSheet"
      · simp [hty, h j (List.mem_cons_self j rest) d hd, hrest]
      · simp [hty, hrest]

/-- Every component stored by the pipeline (wired store over the
preprocessed entries) carries the measure-sheet type tag. -/
theorem wired_pipeline_MS (entries : List Entry) :
    ∀ i c, lookupStore (wire (Preprocess entries)
      (materialize (Preprocess entries))) i = some c →
      c.typeName = "MeasureSheet" := by
  intro i c h
  have hmem := lookup_mem _ _ _ h
  have hQ : ∀ p ∈ wire (Preprocess entries) (materialize (Preprocess entries)),
      (p : Int × Component).2.typeName = "MeasureSheet" := by
    apply wire_forall
    · intro p hp
      rcases mem_materialize _ p hp with ⟨e, he, hpe⟩
      have hkeep : keepEntry e = true := by
        rw [Preprocess_eq_filter] at he
        exact (List.mem_filter.mp he).2
      have hty : e.typeName = "MeasureSheet" := by
        simp only [keepEntry, Bool.and_eq_true, beq_iff_eq] at hkeep
        exact hkeep.2
      rw [hpe, Entry.AsComponent]
      exact hty
    · intro t p hq
      rw [addDependency] at *
      exact hq
    · intro d p hq
      rw [addDependent] at *
      exact hq
  exact hQ (i, c) hmem

/-! ### Claims -/

/-- C1: Edge symmetry of the built graph: for two components bound at
keys `a` and `b` — in the wired store (before pruning) or in the
mapping returned by `ResolveRelations` (after pruning) — `a` appears in
the dependencies of the component at `b` iff `b` appears in the
dependents of the component at `a`: every edge is created as a pair and
no one-directional edge ever exists. -/
theorem claim_C1_edge_symmetry (entries : List Entry) (a b : Int)
    (A B : Component) :
    (lookupStore (wire entries (materialize entries)) a = some A →
      lookupStore (wire entries (materialize entries)) b = some B →
      (a ∈ B.dependencies ↔ b ∈ A.dependents)) ∧
    (lookupStore (ResolveRelations entries) a = some A →
      lookupStore (ResolveRelations entries) b = some B →
      (a ∈ B.dependencies ↔ b ∈ A.dependents)) := by
  have hsym := sym_wired entries
  have hfromW : lookupStore (wire entries (materialize entries)) a = some A →
      lookupStore (wire entries (materialize entries)) b = some B →
      (a ∈ B.dependencies ↔ b ∈ A.dependents) := by
    intro hA hB
    have h1 : depsOf (wire entries (materialize entries)) b = B.dependencies := by
      rw [depsOf, hB]
    have h2 : deptsOf (wire entries (materialize entries)) a = A.dependents := by
      rw [deptsOf, hA]
    rw [← h1, ← h2]
    exact hsym a b
  refine ⟨hfromW, ?_⟩
  intro hA hB
  have hnd := nodup_keys_wired entries
  rw [ResolveRelations] at hA hB
  exact hfromW (lookup_prune_some _ hnd a A hA).1 (lookup_prune_some _ hnd b B hB).1

/-- Witness for C1: in the two-sheet scenario both directions of the
mutual edge are present after pruning. -/
theorem claim_C1_edge_symmetry_witness :
    (1 : Int) ∈ ([1] : List Int) ↔ (2 : Int) ∈ ([2] : List Int) :=
  (claim_C1_edge_symmetry [sheetA, sheetB] 1 2
    ⟨1, "1.0 A", "MeasureSheet", [2], [2]⟩
    ⟨2, "2.0 B", "MeasureSheet", [1], [1]⟩).2 (by decide) (by decide)

/-- C2: Filter correctness: `Preprocess` returns exactly the
order-preserved subsequence of the records that satisfy all four
conditions (folder flag false, non-empty reference list, parent id not
denylisted, type tag equal to the measure-sheet tag); each record is
kept whole or dropped whole, with no reordering and no deduplication,
and the input list is not mutated (`Preprocess` is a pure function). -/
theorem claim_C2_filter_correctness (entries : List Entry) :
    Preprocess entries = entries.filter keepEntry :=
  Preprocess_eq_filter entries

/-- C4: Isolation pruning: every component bound in the mapping
returned by `ResolveRelations` has a non-empty dependency list or a
non-empty dependent list, and every component of the wired store whose
two lists are both empty is absent from the returned mapping. -/
theorem claim_C4_isolation_pruning (entries : List Entry) :
    (∀ i c, lookupStore (ResolveRelations entries) i = some c →
      0 < c.dependencies.length + c.dependents.length) ∧
    (∀ i c, lookupStore (wire entries (materialize entries)) i = some c →
      c.dependencies = [] → c.dependents = [] →
      lookupStore (ResolveRelations entries) i = none) := by
  have hnd := nodup_keys_wired entries
  constructor
  · intro i c h
    rw [ResolveRelations] at h
    have hk := (lookup_prune_some _ hnd i c h).2
    omega
  · intro i c h hdeps hdepts
    rw [ResolveRelations, lookup_prune _ hnd i, h, Option.some_bind]
    simp [hdeps, hdepts]

/-- Witness for C4: the mutual-edge component has a positive degree. -/
theorem claim_C4_isolation_pruning_witness :
    0 < (([2] : List Int)).length + (([2] : List Int)).length :=
  (claim_C4_isolation_pruning [sheetA, sheetB]).1 1
    ⟨1, "1.0 A", "MeasureSheet", [2], [2]⟩ (by decide)

/-- C3: Reference wiring with silent drops: for every entry `e` of the
wired list (with the spec's assumption of unique ids), the component of
`e` lists as dependencies exactly the ids of the references of `e`
whose target id is materialized, in reference order (references to
absent targets contribute nothing), and lists as dependents exactly one
entry id per reference of any entry targeting `e`, in entry order then
reference order.  The wiring is a total function: no input raises an
error. -/
theorem claim_C3_reference_wiring (entries : List Entry)
    (hnd : (entries.map Entry.id).Nodup) (e : Entry) (he : e ∈ entries) :
    ∃ c, lookupStore (wire entries (materialize entries)) e.id = some c ∧
      c.dependencies =
        (e.directReferences.filter
          (fun r => decide (r.id ∈ entries.map Entry.id))).map DirectReference.id ∧
      c.dependents =
        entries.flatMap (fun x =>
          (x.directReferences.filter (fun r => decide (r.id = e.id))).map
            (fun _ => x.id)) := by
  have hsome : (lookupStore (wire entries (materialize entries)) e.id).isSome = true := by
    rw [lookup_isSome_congr (keys_wire entries (materialize entries))]
    exact hall_materialize entries e he
  rcases Option.isSome_iff_exists.mp hsome with ⟨c, hc⟩
  have htest : ∀ r : DirectReference,
      (lookupStore (materialize entries) r.id).isSome =
        decide (r.id ∈ entries.map Entry.id) := by
    intro r
    by_cases hm : r.id ∈ entries.map Entry.id
    · rw [decide_eq_true hm]
      exact (lookup_isSome_iff _ _).mpr ((mem_keys_materialize entries r.id).mpr hm)
    · rw [decide_eq_false hm]
      rw [Bool.eq_false_iff]
      intro hI
      exact hm ((mem_keys_materialize entries r.id).mp ((lookup_isSome_iff _ _).mp hI))
  have htest2 : ∀ r : DirectReference,
      (decide (r.id = e.id) && (lookupStore (materialize entries) r.id).isSome) =
        decide (r.id = e.id) := by
    intro r
    by_cases hre : r.id = e.id
    · rw [decide_eq_true hre, Bool.true_and, hre]
      exact (lookup_isSome_iff _ _).mpr
        ((mem_keys_materialize entries e.id).mpr (List.mem_map.mpr ⟨e, he, rfl⟩))
    · rw [decide_eq_false hre, Bool.false_and]
  refine ⟨c, hc, ?_, ?_⟩
  · have hdeps := depsOf_wire entries (materialize entries) e he hnd
      (hall_materialize entries)
    rw [depsOf_materialize, List.nil_append] at hdeps
    have h2 : depsOf (wire entries (materialize entries)) e.id = c.dependencies := by
      rw [depsOf, hc]
    rw [h2] at hdeps
    rw [hdeps]
    simp only [htest]
  · have hdepts := deptsOf_wire entries (materialize entries) e.id
    rw [deptsOf_materialize, List.nil_append] at hdepts
    have h2 : deptsOf (wire entries (materialize entries)) e.id = c.dependents := by
      rw [deptsOf, hc]
    rw [h2] at hdepts
    rw [hdepts]
    simp only [htest2]

/-- Witness for C3 at the two-sheet scenario, entry `sheetA`. -/
theorem claim_C3_reference_wiring_witness :
    ∃ c, lookupStore (wire [sheetA, sheetB] (materialize [sheetA, sheetB]))
        sheetA.id = some c ∧
      c.dependencies =
        (sheetA.directReferences.filter
          (fun r => decide (r.id ∈ [sheetA, sheetB].map Entry.id))).map
            DirectReference.id ∧
      c.dependents =
        [sheetA, sheetB].flatMap (fun x =>
          (x.directReferences.filter (fun r => decide (r.id = sheetA.id))).map
            (fun _ => x.id)) :=
  claim_C3_reference_wiring [sheetA, sheetB] (by decide) sheetA (by decide)

/-- C5: No dangling edges: every id listed in the dependencies or the
dependents of a component of the mapping returned by `ResolveRelations`
is itself bound in that mapping — pruning never removes a component
still referenced from another component. -/
theorem claim_C5_no_dangling (entries : List Entry) (i : Int) (c : Component)
    (h : lookupStore (ResolveRelations entries) i = some c) :
    ∀ j, (j ∈ c.dependencies ∨ j ∈ c.dependents) →
      ∃ d, lookupStore (ResolveRelations entries) j = some d := by
  have hnd := nodup_keys_wired entries
  have hsym := sym_wired entries
  rw [ResolveRelations] at h
  have hW := (lookup_prune_some _ hnd i c h).1
  intro j hj
  rcases hj with hj | hj
  · have hdeps : j ∈ depsOf (wire entries (materialize entries)) i := by
      rw [depsOf, hW]
      exact hj
    have hji : i ∈ deptsOf (wire entries (materialize entries)) j :=
      (hsym j i).mp hdeps
    cases hd : lookupStore (wire entries (materialize entries)) j with
    | none =>
      rw [deptsOf, hd] at hji
      simp at hji
    | some d =>
      have hji2 : i ∈ d.dependents := by
        rw [deptsOf, hd] at hji
        exact hji
      refine ⟨d, ?_⟩
      rw [ResolveRelations]
      apply lookup_prune_kept _ hnd j d hd
      intro hcon
      rw [List.length_eq_zero.mp hcon.1] at hji2
      simp at hji2
  · have hdepts : j ∈ deptsOf (wire entries (materialize entries)) i := by
      rw [deptsOf, hW]
      exact hj
    have hji : i ∈ depsOf (wire entries (materialize entries)) j :=
      (hsym i j).mpr hdepts
    cases hd : lookupStore (wire entries (materialize entries)) j with
    | none =>
      rw [depsOf, hd] at hji
      simp at hji
    | some d =>
      have hji2 : i ∈ d.dependencies := by
        rw [depsOf, hd] at hji
        exact hji
      refine ⟨d, ?_⟩
      rw [ResolveRelations]
      apply lookup_prune_kept _ hnd j d hd
      intro hcon
      rw [List.length_eq_zero.mp hcon.2] at hji2
      simp at hji2

/-- Witness for C5: the neighbour named by the kept component of the
two-sheet scenario is itself in the pruned mapping. -/
theorem claim_C5_no_dangling_witness :
    ∃ d, lookupStore (ResolveRelations [sheetA, sheetB]) 2 = some d :=
  claim_C5_no_dangling [sheetA, sheetB] 1
    ⟨1, "1.0 A", "MeasureSheet", [2], [2]⟩ (by decide) 2 (Or.inl (by decide))

/-- C6: Neighbour-view formatter contract with self-loop suppression:
for a component whose recorded neighbour ids all resolve (as every
pipeline-built component does, see C9) to measure-sheet components
stored under their own id, the upstream view has exactly one line —
neighbour short label, arrow, own short label — per dependency entry
in collection order, excluding entries equal to the component's own id;
the downstream view is symmetric over the dependents; and the full
payload is the joined upstream lines, a newline, then the joined
downstream lines.  Duplicates in a collection yield duplicate lines,
and a recorded raw self-edge never produces a line. -/
theorem claim_C6_formatter_views (s : Store) (c : Component)
    (hdep : ∀ j ∈ c.dependencies, ∃ d, lookupStore s j = some d ∧ d.id = j ∧
      d.typeName = "MeasureSheet")
    (hdept : ∀ j ∈ c.dependents, ∃ d, lookupStore s j = some d ∧ d.id = j ∧
      d.typeName = "MeasureSheet") :
    UpstreamDiagram s c = String.intercalate "\n"
      ((c.dependencies.filter (fun j => !(j == c.id))).map
        (fun j => relationLine (shortNameAt s j) c.ShortName)) ∧
    DownstreamDiagram s c = String.intercalate "\n"
      ((c.dependents.filter (fun j => !(j == c.id))).map
        (fun j => relationLine c.ShortName (shortNameAt s j))) ∧
    FullDiagram s c = String.intercalate "\n"
      ((c.dependencies.filter (fun j => !(j == c.id))).map
        (fun j => relationLine (shortNameAt s j) c.ShortName)) ++ "\n" ++
      String.intercalate "\n"
      ((c.dependents.filter (fun j => !(j == c.id))).map
        (fun j => relationLine c.ShortName (shortNameAt s j))) := by
  have h1 := upstreamLines_resolved s c c.dependencies hdep
  have h2 := downstreamLines_resolved s c c.dependents hdept
  refine ⟨?_, ?_, ?_⟩
  · rw [UpstreamDiagram, h1]
  · rw [DownstreamDiagram, h2]
  · rw [FullDiagram, UpstreamDiagram, DownstreamDiagram, h1, h2]

/-- Witness for C6: upstream view of the kept component of the
two-sheet scenario. -/
theorem claim_C6_formatter_views_witness :
    UpstreamDiagram (wire [sheetA, sheetB] (materialize [sheetA, sheetB]))
        ⟨1, "1.0 A", "MeasureSheet", [2], [2]⟩ =
      String.intercalate "\n"
        ((([2] : List Int).filter (fun j => !(j == (1 : Int)))).map
          (fun j => relationLine
            (shortNameAt (wire [sheetA, sheetB] (materialize [sheetA, sheetB])) j)
            (Component.ShortName ⟨1, "1.0 A", "MeasureSheet", [2], [2]⟩))) :=
  (claim_C6_formatter_views
    (wire [sheetA, sheetB] (materialize [sheetA, sheetB]))
    ⟨1, "1.0 A", "MeasureSheet", [2], [2]⟩
    (by
      intro j hj
      have hj2 : j = 2 := List.mem_singleton.mp hj
      subst hj2
      exact ⟨⟨2, "2.0 B", "MeasureSheet", [1], [1]⟩, by decide, by decide, by decide⟩)
    (by
      intro j hj
      have hj2 : j = 2 := List.mem_singleton.mp hj
      subst hj2
      exact ⟨⟨2, "2.0 B", "MeasureSheet", [1], [1]⟩, by decide, by decide, by decide⟩)).1

/-- C7: Short-label derivation: a display name beginning with a prefix
of digits and dots yields the maximal such leading prefix (in
particular the spec's examples), and a display name whose first
character is outside that class is returned unchanged; `ShortName` is a
pure function of the name. -/
theorem claim_C7_short_label :
    Component.ShortName ⟨0, "12.3.4 Some Name", "", [], []⟩ = "12.3.4" ∧
    Component.ShortName ⟨0, "12.3 Revenue", "", [], []⟩ = "12.3" ∧
    Component.ShortName ⟨0, "Untitled", "", [], []⟩ = "Untitled" ∧
    (∀ (c : Component) (pre post : List Char), c.name.toList = pre ++ post →
      pre ≠ [] → (∀ ch ∈ pre, numberCodeChar ch = true) →
      (∀ ch ∈ post.head?, numberCodeChar ch = false) →
      c.ShortName = String.mk pre) ∧
    (∀ c : Component, (∀ ch ∈ c.name.toList.head?, numberCodeChar ch = false) →
      c.ShortName = c.name) := by
  have htake : ∀ (pre post : List Char), (∀ ch ∈ pre, numberCodeChar ch = true) →
      (∀ ch ∈ post.head?, numberCodeChar ch = false) →
      (pre ++ post).takeWhile numberCodeChar = pre := by
    intro pre
    induction pre with
    | nil =>
      intro post _ hpost
      cases post with
      | nil => rfl
      | cons a rest =>
        have ha : numberCodeChar a = false := hpost a rfl
        simp [List.takeWhile_cons, ha]
    | cons a pre ih =>
      intro post hpre hpost
      have ha : numberCodeChar a = true := hpre a (List.mem_cons_self a pre)
      simp [List.takeWhile_cons, ha,
        ih post (fun ch hch => hpre ch (List.mem_cons_of_mem a hch)) hpost]
  refine ⟨by decide, by decide, by decide, ?_, ?_⟩
  · intro c pre post hname hpre hall hpost
    rw [Component.ShortName, hname, htake pre post hall hpost]
    have hne : ¬((String.mk pre).isEmpty = true) := by
      intro hb
      apply hpre
      have : String.mk pre = "" := (String.isEmpty_iff _).mp hb
      exact congrArg String.data this
    rw [if_neg hne]
  · intro c hpost
    have htk : c.name.toList.takeWhile numberCodeChar = [] := by
      cases hnl : c.name.toList with
      | nil => rfl
      | cons a rest =>
        have ha : numberCodeChar a = false := by
          apply hpost
          rw [hnl]
          rfl
        simp [List.takeWhile_cons, ha]
    rw [Component.ShortName, htk]
    rfl

/-- Witness for C7: the maximal-prefix clause at a concrete name. -/
theorem claim_C7_short_label_witness :
    Component.ShortName ⟨0, "7.2x", "", [], []⟩ =
      String.mk [Char.ofNat 55, Char.ofNat 46, Char.ofNat 50] :=
  claim_C7_short_label.2.2.2.1 ⟨0, "7.2x", "", [], []⟩
    [Char.ofNat 55, Char.ofNat 46, Char.ofNat 50] [Char.ofNat 120]
    (by decide) (by decide) (by decide)
    (fun ch hch => by
      have hx : ch = Char.ofNat 120 := by
        cases hch
        rfl
      subst hx
      decide)

/-- C8: End-to-end pre-filter and prune interaction: with Sheet C
(id 10, one reference to id 11) and Sheet D (id 11, no references), D
is dropped by `Preprocess` for having zero references, C's reference to
11 resolves to nothing, C ends wired with two empty lists, and the
final mapping is empty — zero diagrams — even though C declares a
reference to D. -/
theorem claim_C8_end_to_end :
    Preprocess [sheetC, sheetD] = [sheetC] ∧
    lookupStore (wire (Preprocess [sheetC, sheetD])
        (materialize (Preprocess [sheetC, sheetD]))) 10 =
      some ⟨10, "10.0 C", "MeasureSheet", [], []⟩ ∧
    ResolveRelations (Preprocess [sheetC, sheetD]) = [] := by
  decide

/-- C9: Implicit invariant of the pipeline: every component of the
wired store built from `Preprocess` output carries the measure-sheet
type tag; hence every component of the pruned mapping and every
component reachable through a dependencies or dependents collection
does too, and the type guard of the upstream and downstream formatters
never skips an entry — the formatters coincide with the variants that
apply only the identifier self-check. -/
theorem claim_C9_pipeline_measure_sheets (entries : List Entry) :
    (∀ i c, lookupStore (wire (Preprocess entries)
        (materialize (Preprocess entries))) i = some c →
      c.typeName = "MeasureSheet") ∧
    (∀ i c, lookupStore (ResolveRelations (Preprocess entries)) i = some c →
      c.typeName = "MeasureSheet" ∧
      (∀ j, (j ∈ c.dependencies ∨ j ∈ c.dependents) → ∀ d,
        lookupStore (wire (Preprocess entries)
          (materialize (Preprocess entries))) j = some d →
        d.typeName = "MeasureSheet") ∧
      upstreamLines (wire (Preprocess entries) (materialize (Preprocess entries)))
          c c.dependencies =
        upstreamLinesSelfOnly (wire (Preprocess entries)
          (materialize (Preprocess entries))) c c.dependencies ∧
      downstreamLines (wire (Preprocess entries) (materialize (Preprocess entries)))
          c c.dependents =
        downstreamLinesSelfOnly (wire (Preprocess entries)
          (materialize (Preprocess entries))) c c.dependents) := by
  have hms := wired_pipeline_MS entries
  refine ⟨hms, ?_⟩
  intro i c h
  have hnd := nodup_keys_wired (Preprocess entries)
  rw [ResolveRelations] at h
  have hW := (lookup_prune_some _ hnd i c h).1
  exact ⟨hms i c hW, fun j _ d hd => hms j d hd,
    upstreamLines_selfOnly_of_MS _ c hms _,
    downstreamLines_selfOnly_of_MS _ c hms _⟩

/-- Witness for C9 at the two-sheet scenario. -/
theorem claim_C9_pipeline_measure_sheets_witness :
    Component.typeName ⟨1, "1.0 A", "MeasureSheet", [2], [2]⟩ = "MeasureSheet" :=
  (claim_C9_pipeline_measure_sheets [sheetA, sheetB]).1 1
    ⟨1, "1.0 A", "MeasureSheet", [2], [2]⟩ (by decide)

/-- C10 counterexample: sheet with id 5 references only itself (its one
reference resolves to its own id), its component survives pruning with
itself in both collections, yet because another sheet (id 6) references
it, its full payload is a newline followed by a downstream line — not
the bare newline the claim asserts. -/
theorem claim_C10_counterexample :
    (∀ r ∈ sheetS.directReferences,
      r.id ∈ [sheetS, sheetT].map Entry.id → r.id = sheetS.id) ∧
    lookupStore (ResolveRelations [sheetS, sheetT]) 5 =
      some ⟨5, "5.1 S", "MeasureSheet", [5], [5, 6]⟩ ∧
    FullDiagram (wire [sheetS, sheetT] (materialize [sheetS, sheetT]))
      ⟨5, "5.1 S", "MeasureSheet", [5], [5, 6]⟩ ≠ "\n" := by
  decide

/-- C10 (amended): a filtered record whose references all resolve only
to its own identifier, and which no other record's references target,
yields a component carrying itself in both collections, survives the
isolation prune, and its full neighbour-view payload is exactly the
single newline separating two empty views. -/
theorem claim_C10_self_reference (entries : List Entry) (e : Entry)
    (hnd : (entries.map Entry.id).Nodup) (he : e ∈ entries)
    (hres : ∀ r ∈ e.directReferences, r.id ∈ entries.map Entry.id → r.id = e.id)
    (hself : ∃ r ∈ e.directReferences, r.id = e.id)
    (honly : ∀ x ∈ entries, ∀ r ∈ x.directReferences, r.id = e.id → x.id = e.id) :
    ∃ c, lookupStore (ResolveRelations entries) e.id = some c ∧
      e.id ∈ c.dependencies ∧ e.id ∈ c.dependents ∧
      FullDiagram (wire entries (materialize entries)) c = "\n" := by
  have hndW := nodup_keys_wired entries
  have hsome : (lookupStore (wire entries (materialize entries)) e.id).isSome = true := by
    rw [lookup_isSome_congr (keys_wire entries (materialize entries))]
    exact hall_materialize entries e he
  rcases Option.isSome_iff_exists.mp hsome with ⟨c, hc⟩
  have hdeps0 := depsOf_wire entries (materialize entries) e he hnd
    (hall_materialize entries)
  rw [depsOf_materialize, List.nil_append] at hdeps0
  have hdc : depsOf (wire entries (materialize entries)) e.id = c.dependencies := by
    rw [depsOf, hc]
  have hdeps : c.dependencies =
      (e.directReferences.filter
        (fun r => (lookupStore (materialize entries) r.id).isSome)).map
        DirectReference.id := by
    rw [← hdc, hdeps0]
  rcases hself with ⟨r0, hr0mem, hr0id⟩
  have hesome : (lookupStore (materialize entries) e.id).isSome = true :=
    hall_materialize entries e he
  have hr0some : (lookupStore (materialize entries) r0.id).isSome = true := by
    rw [hr0id]
    exact hesome
  have hmemdep : e.id ∈ c.dependencies := by
    rw [hdeps]
    exact List.mem_map.mpr ⟨r0, List.mem_filter.mpr ⟨hr0mem, hr0some⟩, hr0id⟩
  have hsym := sym_wired entries
  have hmemdept0 : e.id ∈ deptsOf (wire entries (materialize entries)) e.id :=
    (hsym e.id e.id).mp (by rw [depsOf, hc]; exact hmemdep)
  have hmemdept : e.id ∈ c.dependents := by
    rw [deptsOf, hc] at hmemdept0
    exact hmemdept0
  have hdepts0 := deptsOf_wire entries (materialize entries) e.id
  rw [deptsOf_materialize, List.nil_append] at hdepts0
  have hdtc : deptsOf (wire entries (materialize entries)) e.id = c.dependents := by
    rw [deptsOf, hc]
  have hdepts : c.dependents = entries.flatMap (fun x =>
      (x.directReferences.filter
        (fun r => decide (r.id = e.id) &&
          (lookupStore (materialize entries) r.id).isSome)).map
        (fun _ => x.id)) := by
    rw [← hdtc, hdepts0]
  have hall_dep : ∀ j ∈ c.dependencies, j = e.id := by
    intro j hj
    rw [hdeps] at hj
    rcases List.mem_map.mp hj with ⟨r, hrf, hrid⟩
    rcases List.mem_filter.mp hrf with ⟨hrmem, hrsome⟩
    have hmemids : r.id ∈ entries.map Entry.id :=
      (mem_keys_materialize entries r.id).mp ((lookup_isSome_iff _ _).mp hrsome)
    rw [← hrid]
    exact hres r hrmem hmemids
  have hall_dept : ∀ j ∈ c.dependents, j = e.id := by
    intro j hj
    rw [hdepts] at hj
    rcases List.mem_flatMap.mp hj with ⟨x, hx, hjx⟩
    rcases List.mem_map.mp hjx with ⟨r, hrf, hrid⟩
    rcases List.mem_filter.mp hrf with ⟨hrmem, hrdec⟩
    have hre : r.id = e.id := of_decide_eq_true (Bool.and_elim_left hrdec)
    rw [← hrid]
    exact honly x hx r hrmem hre
  have hselfres : ∀ j ∈ c.dependencies, ∀ d,
      lookupStore (wire entries (materialize entries)) j = some d → d.id = c.id := by
    intro j hj d hd
    rw [hall_dep j hj] at hd
    have hdc2 : c = d := Option.some.inj (hc.symm.trans hd)
    rw [← hdc2]
  have hselfresd : ∀ j ∈ c.dependents, ∀ d,
      lookupStore (wire entries (materialize entries)) j = some d → d.id = c.id := by
    intro j hj d hd
    rw [hall_dept j hj] at hd
    have hdc2 : c = d := Option.some.inj (hc.symm.trans hd)
    rw [← hdc2]
  have hupnil := upstreamLines_nil_of_self _ c c.dependencies hselfres
  have hdownnil := downstreamLines_nil_of_self _ c c.dependents hselfresd
  have hkeep : lookupStore (ResolveRelations entries) e.id = some c := by
    rw [ResolveRelations]
    apply lookup_prune_kept _ hndW e.id c hc
    intro hcon
    rw [List.length_eq_zero.mp hcon.2] at hmemdep
    simp at hmemdep
  refine ⟨c, hkeep, hmemdep, hmemdept, ?_⟩
  rw [FullDiagram, UpstreamDiagram, DownstreamDiagram, hupnil, hdownnil]
  rfl

/-- Witness for the amended C10 at the one-sheet self-reference
scenario. -/
theorem claim_C10_self_reference_witness :
    ∃ c, lookupStore (ResolveRelations [sheetS]) sheetS.id = some c ∧
      sheetS.id ∈ c.dependencies ∧ sheetS.id ∈ c.dependents ∧
      FullDiagram (wire [sheetS] (materialize [sheetS])) c = "\n" :=
  claim_C10_self_reference [sheetS] sheetS (by decide) (by decide)
    (by decide) ⟨{ id := 5, typeName := "MeasureSheet", dependencyType := [] },
      by decide, by decide⟩ (by decide)
